import Mathlib

/-!
Verification of the chunking and retrieval core of the rag-knowledge-base
repository.

The first half embeds `src/ingest/chunking/chunker.py`: the block data
model, `split_into_sections` and `build_text_chunks_for_section`.
The second half embeds `src/rag/retrieval.py`: embedding normalization,
cosine similarity, `score_chunks_by_similarity` and `retrieve_top_k`.

Modelling conventions:
- Python strings are Lean `String`s; `str.strip()` is modelled by
  `pyStrip`, which drops ASCII whitespace from both ends.
- Python `int` lengths and indices are `Nat`/`Int`; the `k` argument of
  `retrieve_top_k` is an `Int` and Python's slice `scored[:k]` is
  modelled exactly (negative `k` counts from the end) by `pySlice`.
- Float arithmetic is modelled as exact real arithmetic: stored vector
  components are rationals, similarity scores live in `ℝ`, and
  `np.linalg.norm` is the real square root of the sum of squares.
- External collaborators (the Supabase read in `load_chunks` and the
  OpenAI call in `embed_query`) are modelled as explicit parameters:
  the loaded candidate pool is passed as a list and the embedding call
  outcome as an `Except` value, so a provider failure is an `.error`.
- Exceptions that the Python code can raise (a `ValueError` from
  `np.dot` on mismatched dimensions, an embedding-provider failure)
  are modelled with `Except PyError`.
-/

namespace RagKB

/-! ### Block data model (src/ingest/chunking/chunker.py) -/

/-- ASCII whitespace as recognised by Python's `str.strip()`. -/
def isPySpace (c : Char) : Bool :=
  c = ' ' || c = '\t' || c = '\n' || c = '\r' || c = '\x0b' || c = '\x0c'

/-- Python `str.strip()`: remove leading and trailing whitespace. -/
def pyStrip (s : String) : String :=
  String.mk (((s.data.dropWhile isPySpace).reverse.dropWhile isPySpace).reverse)

/-- Python `s or d` for strings: `d` when `s` is empty, else `s`. -/
def pyOrStr (s d : String) : String :=
  if s = "" then d else s

/-- A document block (`BlockLike` in chunker.py: a `Block` dataclass or a
dict; both carry a text and an optional heading level, accessed through
the `_get_block_*` helpers). A Python `None`/missing text is the empty
string. -/
structure Block where
  text : String
  level : Option Int
deriving DecidableEq, Repr

/-- `_get_block_text`: the block's text, stripped. -/
def getBlockText (b : Block) : String := pyStrip b.text

/-- `_get_block_level`: the block's heading level, if any. -/
def getBlockLevel (b : Block) : Option Int := b.level

/-- The `Section` dataclass of chunker.py. -/
structure Section where
  index : Nat
  title : String
  heading_block : Option Block
  blocks : List Block
deriving DecidableEq, Repr

/-! ### split_into_sections -/

/-- The loop state of `split_into_sections`: the accumulated sections,
whether a level-1 heading has been seen, and the currently open
section's blocks, title, heading block and index. -/
structure SplitState where
  sections : List Section
  hasH1 : Bool
  currentBlocks : List Block
  currentTitle : Option String
  currentHeading : Option Block
  currentIndex : Nat
deriving Repr

/-- Closing the currently accumulating section
(`Section(index=current_index, title=current_title or "", ...)`).
For strings, Python's `current_title or ""` equals `current_title`
when present and `""` when `None`, i.e. `Option.getD`. -/
def closeSection (st : SplitState) : Section :=
  { index := st.currentIndex
    title := st.currentTitle.getD ""
    heading_block := st.currentHeading
    blocks := st.currentBlocks }

/-- One iteration of the `for block in blocks` loop of
`split_into_sections`. -/
def stepBlock (st : SplitState) (b : Block) : SplitState :=
  if getBlockLevel b = some 1 then
    { sections := if st.currentBlocks.isEmpty then st.sections
                  else st.sections ++ [closeSection st]
      hasH1 := true
      currentBlocks := [b]
      currentTitle :=
        some (pyOrStr (getBlockText b) ("Section " ++ toString (st.currentIndex + 1)))
      currentHeading := some b
      currentIndex := st.currentIndex + 1 }
  else
    { st with currentBlocks := st.currentBlocks ++ [b] }

/-- The initial loop state of `split_into_sections`. -/
def initSplitState : SplitState :=
  { sections := [], hasH1 := false, currentBlocks := []
    currentTitle := none, currentHeading := none, currentIndex := 0 }

/-- `_get_block_text(blocks[0]) if blocks else ""` in the fallback branch. -/
def firstText : List Block → String
  | [] => ""
  | b :: _ => getBlockText b

/-- `split_into_sections` from chunker.py: fold the loop over the blocks,
then close the trailing section, or fall back to a single
`FULL_DOCUMENT` section when no level-1 heading was seen. -/
def split_into_sections (blocks : List Block) : List Section :=
  let st := blocks.foldl stepBlock initSplitState
  if st.currentBlocks.isEmpty then st.sections
  else if st.hasH1 then st.sections ++ [closeSection st]
  else
    [{ index := 1
       title := pyOrStr (firstText blocks) "FULL_DOCUMENT"
       heading_block := none
       blocks := blocks }]

/-! ### build_text_chunks_for_section -/

/-- `"\n\n".join(pieces)` on a list of strings. -/
def joinPieces : List String → String
  | [] => ""
  | [p] => p
  | p :: q :: ps => p ++ "\n\n" ++ joinPieces (q :: ps)

/-- Prefixing a chunk body with the section header when the header is
non-empty (`header + "\n\n" + body` vs the body alone). -/
def withHeader (header body : String) : String :=
  if header = "" then body else header ++ "\n\n" ++ body

/-- The non-empty stripped block texts of a section, in order. -/
def sectionPieces (s : Section) : List String :=
  s.blocks.filterMap (fun b =>
    let t := getBlockText b
    if t = "" then none else some t)

/-- The loop state of `build_text_chunks_for_section`: flushed chunks,
the current buffer and its tracked length counter. -/
structure ChunkState where
  chunks : List String
  current : List String
  currentLen : Nat
deriving DecidableEq, Repr

/-- `flush_current()`: join the buffer, prefix the header, append the
chunk, and reset the buffer. -/
def flushCurrent (header : String) (st : ChunkState) : ChunkState :=
  if st.current.isEmpty then st
  else
    { chunks := st.chunks ++ [withHeader header (joinPieces st.current)]
      current := []
      currentLen := 0 }

/-- `extra_len = len(piece) + (2 if current else 0)`. -/
def extraLen (st : ChunkState) (piece : String) : Nat :=
  piece.length + (if st.current.isEmpty then 0 else 2)

/-- One iteration of the `for piece in pieces` loop: flush when adding
the piece would push the counter past `max_chars` and the buffer is
non-empty, then append the piece and bump the counter. -/
def chunkStep (maxChars : Int) (header : String) (st : ChunkState) (piece : String) :
    ChunkState :=
  let extra := extraLen st piece
  let st1 :=
    if ((st.currentLen + extra : Nat) : Int) > maxChars ∧ ¬ st.current.isEmpty then
      flushCurrent header st
    else st
  { st1 with current := st1.current ++ [piece], currentLen := st1.currentLen + extra }

/-- `build_text_chunks_for_section` from chunker.py. -/
def build_text_chunks_for_section (s : Section) (maxChars minChars : Int) :
    List String :=
  let header := pyStrip s.title
  let pieces := sectionPieces s
  if pieces.isEmpty then
    if header = "" then [] else [header]
  else
    let st := pieces.foldl (chunkStep maxChars header) ⟨[], [], 0⟩
    if st.current.isEmpty then st.chunks
    else
      let tailText := joinPieces st.current
      if ¬ st.chunks.isEmpty ∧ (tailText.length : Int) < minChars then
        st.chunks.dropLast ++ [st.chunks.getLastD "" ++ "\n\n" ++ tailText]
      else
        st.chunks ++ [withHeader header tailText]

/-! ### Retrieval data model (src/rag/retrieval.py) -/

/-- A JSON-decodable Python scalar as it can appear inside a stored
embedding sequence: a number, or anything that `np.array(..., float32)`
cannot convert. -/
inductive PyVal where
  | num (q : ℚ)
  | other
deriving DecidableEq, Repr

/-- The result of `json.loads` on an embedding string: a Python list, or
some non-list JSON value. -/
inductive JsonVal where
  | arr (xs : List PyVal)
  | nonArr
deriving DecidableEq, Repr

/-- The raw stored embedding of a chunk row, as `_normalize_embedding`
can receive it: Python `None`, a string together with its strict JSON
decode outcome (`none` models a `json.JSONDecodeError`), a native list,
a tuple, or a value of any other type. -/
inductive EmbRaw where
  | pyNone
  | jsonStr (decoded : Option JsonVal)
  | pyList (xs : List PyVal)
  | pyTuple (xs : List PyVal)
  | otherType
deriving DecidableEq, Repr

/-- The `Chunk` dataclass of retrieval.py. -/
structure Chunk where
  id : String
  document_id : String
  text : String
  embedding : EmbRaw
  quality_flag : String
deriving DecidableEq, Repr

/-- Exceptions the retrieval path can raise: a failure of the OpenAI
embedding call, or a `ValueError` from `np.dot` on mismatched
dimensions. -/
inductive PyError where
  | embedError
  | valueError
deriving DecidableEq, Repr

/-- `_normalize_embedding` from retrieval.py: pass a list or tuple
through, decode a string as JSON and keep only decoded lists, and map
everything else (including `None` and decode failures) to `None`. -/
def normalize_embedding : EmbRaw → Option (List PyVal)
  | .pyNone => none
  | .jsonStr none => none
  | .jsonStr (some (.arr xs)) => some xs
  | .jsonStr (some .nonArr) => none
  | .pyList xs => some xs
  | .pyTuple xs => some xs
  | .otherType => none

/-- Conversion of one element by `np.array(emb_list, dtype=np.float32)`:
numbers convert, anything else raises. -/
def toFloat? : PyVal → Option ℚ
  | .num q => some q
  | .other => none

/-- `np.array(emb_list, dtype=np.float32)`: succeeds iff every element
is numeric. -/
def npToFloatArray (xs : List PyVal) : Option (List ℚ) :=
  xs.mapM toFloat?

/-! ### Cosine similarity -/

/-- `np.dot` of two equal-length vectors. -/
def dotQ (a b : List ℚ) : ℚ :=
  (List.zipWith (fun x y => x * y) a b).sum

/-- The sum of squares of a vector's components. -/
def sumSq (a : List ℚ) : ℚ :=
  (a.map (fun x => x * x)).sum

/-- `np.linalg.norm`: the Euclidean norm, as a real number. -/
noncomputable def pyNorm (a : List ℚ) : ℝ :=
  Real.sqrt ((sumSq a : ℚ) : ℝ)

open Classical in
/-- `_cosine_similarity` from retrieval.py: return `0.0` when the
product of the norms is zero, otherwise the dot product divided by that
product. `np.dot` raises a `ValueError` when the dimensions differ, so
the non-zero-denominator branch is an error in that case. -/
noncomputable def cosine_similarity (a b : List ℚ) : Except PyError ℝ :=
  let denom := pyNorm a * pyNorm b
  if denom = 0 then .ok 0
  else if a.length = b.length then .ok (((dotQ a b : ℚ) : ℝ) / denom)
  else .error .valueError

/-! ### score_chunks_by_similarity -/

open Classical in
/-- Insertion of a scored pair into a list sorted by non-increasing
score, after all pairs of greater or equal score (the position a stable
descending sort gives it). -/
noncomputable def insertScored (x : Chunk × ℝ) : List (Chunk × ℝ) → List (Chunk × ℝ)
  | [] => [x]
  | y :: ys => if y.2 ≤ x.2 then x :: y :: ys else y :: insertScored x ys

/-- `sorted(scored, key=lambda pair: pair[1], reverse=True)`: a stable
sort by non-increasing score. -/
noncomputable def sortByScoreDesc : List (Chunk × ℝ) → List (Chunk × ℝ)
  | [] => []
  | x :: xs => insertScored x (sortByScoreDesc xs)

/-- The `for ch in chunks` loop of `score_chunks_by_similarity`:
skip candidates whose embedding does not normalize, is empty, or fails
numeric conversion; score the rest; propagate exceptions. -/
noncomputable def scoreLoop (q : List ℚ) (acc : List (Chunk × ℝ)) :
    List Chunk → Except PyError (List (Chunk × ℝ))
  | [] => .ok acc
  | ch :: rest =>
    match normalize_embedding ch.embedding with
    | none => scoreLoop q acc rest
    | some embList =>
      if embList.isEmpty then scoreLoop q acc rest
      else
        match npToFloatArray embList with
        | none => scoreLoop q acc rest
        | some v =>
          match cosine_similarity q v with
          | .error e => .error e
          | .ok sim => scoreLoop q (acc ++ [(ch, sim)]) rest

/-- `score_chunks_by_similarity` from retrieval.py: run the scoring loop
and sort the scored pairs by descending score. -/
noncomputable def score_chunks_by_similarity (queryEmbedding : List ℚ)
    (chunks : List Chunk) : Except PyError (List (Chunk × ℝ)) :=
  (scoreLoop queryEmbedding [] chunks).map sortByScoreDesc

/-! ### retrieve_top_k -/

/-- Python's slice `l[:k]` for an arbitrary integer `k`: the first `k`
elements when `k ≥ 0`, all but the last `-k` elements when `k < 0`. -/
def pySlice (l : List α) (k : Int) : List α :=
  if 0 ≤ k then l.take k.toNat else l.take ((l.length : Int) + k).toNat

/-- `retrieve_top_k` from retrieval.py. The Supabase read is modelled by
passing the loaded pool directly, and the `embed_query` call by passing
its outcome: an embedding, or a provider failure. The empty-pool early
return fires before the embedding outcome is consumed. -/
noncomputable def retrieve_top_k (pool : List Chunk)
    (embedResult : Except PyError (List ℚ)) (k : Int) :
    Except PyError (List (Chunk × ℝ)) :=
  if pool.isEmpty then .ok []
  else
    match embedResult with
    | .error e => .error e
    | .ok q =>
      match score_chunks_by_similarity q pool with
      | .error e => .error e
      | .ok scored => .ok (pySlice scored k)

/-! ### Derived predicates used in the statements -/

/-- A candidate participates in scoring iff its stored embedding
normalizes to a non-empty sequence all of whose elements convert to
numbers. -/
def hasScorableEmbedding (ch : Chunk) : Bool :=
  match normalize_embedding ch.embedding with
  | none => false
  | some l => !l.isEmpty && (npToFloatArray l).isSome

/-- Scored results sorted by non-increasing score. -/
def SortedByScoreDesc (l : List (Chunk × ℝ)) : Prop :=
  l.Pairwise (fun p q => q.2 ≤ p.2)

/-- Whether a block list contains a level-1 heading. -/
def containsH1 (blocks : List Block) : Bool :=
  blocks.any (fun b => getBlockLevel b == some 1)

/-- The index of the first section `split_into_sections` emits: `1`,
except that when content blocks precede the first level-1 heading the
leading preamble section is closed with the not-yet-incremented counter
`0`. -/
def firstBlockStart : List Block → Nat
  | [] => 1
  | b :: _ => if getBlockLevel b = some 1 then 1 else 0

/-- The index of the first emitted section, covering the fallback case. -/
def splitStartIndex (blocks : List Block) : Nat :=
  if containsH1 blocks then firstBlockStart blocks else 1

/-- The concatenation of the block lists of a section list, in order. -/
def sectionsBlocks (ss : List Section) : List Block :=
  (ss.map (fun s => s.blocks)).flatten

/-- The length of the longest piece (non-empty stripped block text) of a
section. -/
def longestPiece (s : Section) : Nat :=
  ((sectionPieces s).map String.length).foldr max 0

/-- The length overhead a non-empty header prefix adds to a chunk: the
header's length plus the two-character blank-line separator. -/
def overheadOf (header : String) : Nat :=
  if header = "" then 0 else header.length + 2

/-- The length overhead the title prefix adds to each chunk of a
section: the stripped title's length plus the two-character blank-line
separator, when the stripped title is non-empty. -/
def titleOverhead (s : Section) : Nat :=
  overheadOf (pyStrip s.title)

/-! ### Invariant of the split_into_sections loop -/

/-- State invariant of the sectionizer loop after processing the prefix
`processed` of the input: the closed sections plus the open buffer hold
exactly the processed blocks in order; `hasH1` records whether a level-1
heading occurred; before the first level-1 heading everything sits in
the open buffer with index counter `0`; afterwards the closed indices
plus the pending index form a consecutive run. -/
def SplitInv (st : SplitState) (processed : List Block) : Prop :=
  sectionsBlocks st.sections ++ st.currentBlocks = processed
  ∧ (st.hasH1 = false ↔ ∀ b ∈ processed, getBlockLevel b ≠ some 1)
  ∧ (st.hasH1 = false →
      st.sections = [] ∧ st.currentIndex = 0 ∧ st.currentBlocks = processed)
  ∧ (st.hasH1 = true →
      st.currentBlocks ≠ [] ∧
      st.sections.map (fun s => s.index) ++ [st.currentIndex] =
        List.range' (firstBlockStart processed) (st.sections.length + 1))

lemma sectionsBlocks_append (ss : List Section) (s : Section) :
    sectionsBlocks (ss ++ [s]) = sectionsBlocks ss ++ s.blocks := by
  simp [sectionsBlocks]

lemma firstBlockStart_append (p : List Block) (b : Block) (hp : p ≠ []) :
    firstBlockStart (p ++ [b]) = firstBlockStart p := by
  cases p with
  | nil => exact absurd rfl hp
  | cons c p' => rfl

lemma stepBlock_inv {st : SplitState} {p : List Block} (b : Block)
    (h : SplitInv st p) : SplitInv (stepBlock st b) (p ++ [b]) := by
  obtain ⟨hconcat, hiff, hno, hyes⟩ := h
  by_cases hb : getBlockLevel b = some 1
  · -- a level-1 heading starts a new section
    refine ⟨?_, ?_, ?_, ?_⟩
    · by_cases he : st.currentBlocks.isEmpty
      · have : st.currentBlocks = [] := List.isEmpty_iff.mp he
        simp [stepBlock, hb, he, closeSection]
        simpa [this] using hconcat
      · simp [stepBlock, hb, he, closeSection, sectionsBlocks_append]
        rw [← List.append_assoc, hconcat]
    · constructor
      · intro hfalse
        simp [stepBlock, hb] at hfalse
      · intro hall
        exact absurd (hall b (by simp)) (by simpa using hb)
    · intro hfalse
      simp [stepBlock, hb] at hfalse
    · intro _
      refine ⟨by simp [stepBlock, hb], ?_⟩
      cases hH1 : st.hasH1 with
      | false =>
        obtain ⟨hsec, hidx, hcur⟩ := hno hH1
        by_cases hpnil : p = []
        · have hce : st.currentBlocks.isEmpty := by
            simp [hcur, hpnil]
          simp [stepBlock, hb, hce, hsec, hidx, hpnil, firstBlockStart]
        · have hce : ¬ st.currentBlocks.isEmpty := by
            simpa [hcur] using hpnil
          have hfb : firstBlockStart (p ++ [b]) = 0 := by
            cases p with
            | nil => exact absurd rfl hpnil
            | cons c p' =>
              have hc : getBlockLevel c ≠ some 1 :=
                (hiff.mp hH1) c (by simp)
              simp [firstBlockStart, hc]
          simp [stepBlock, hb, hce, hsec, hidx, hfb, closeSection,
            List.range'_concat]
      | true =>
        obtain ⟨hcb, hrange⟩ := hyes hH1
        have hce : st.currentBlocks.isEmpty = false := by
          cases hl : st.currentBlocks with
          | nil => exact absurd hl hcb
          | cons c cs => rfl
        have hpnil : p ≠ [] := by
          intro hp
          rw [hp] at hconcat
          exact hcb (List.append_eq_nil.mp hconcat).2
        have hfb : firstBlockStart (p ++ [b]) = firstBlockStart p :=
          firstBlockStart_append p b hpnil
        -- the pending index is the last entry of the consecutive run
        have hci : st.currentIndex = firstBlockStart p + st.sections.length := by
          have := congrArg (fun l => l.getLast?) hrange
          simpa [List.range'_concat, List.getLast?_append] using this
        have hmap : (stepBlock st b).sections = st.sections ++ [closeSection st] := by
          simp [stepBlock, hb, hce]
        have hidx2 : (stepBlock st b).currentIndex = st.currentIndex + 1 := by
          simp [stepBlock, hb]
        rw [hmap, hidx2, hfb, List.map_append, List.length_append]
        simp only [List.map_cons, List.map_nil, List.length_cons, List.length_nil,
          closeSection]
        have h2 : List.range' (firstBlockStart p) (st.sections.length + 1 + 1) =
            List.range' (firstBlockStart p) (st.sections.length + 1) ++
              [firstBlockStart p + (st.sections.length + 1)] := by
          simpa using @List.range'_concat 1 (firstBlockStart p) (st.sections.length + 1)
        have h3 : st.currentIndex + 1 = firstBlockStart p + (st.sections.length + 1) := by
          omega
        rw [h2, ← hrange, ← h3, List.append_assoc]
  · -- any other block is appended to the open buffer
    refine ⟨?_, ?_, ?_, ?_⟩
    · simp [stepBlock, hb]
      rw [← List.append_assoc, hconcat]
    · simp only [stepBlock, hb, if_neg, ite_false]
      constructor
      · intro hfalse b' hb'
        rcases List.mem_append.mp hb' with hmem | hmem
        · exact hiff.mp hfalse b' hmem
        · have : b' = b := by simpa using hmem
          simpa [this] using hb
      · intro hall
        exact hiff.mpr (fun b' hb' => hall b' (List.mem_append_left _ hb'))
    · intro hfalse
      simp only [stepBlock, hb, if_neg, ite_false] at hfalse ⊢
      obtain ⟨hsec, hidx, hcur⟩ := hno hfalse
      exact ⟨hsec, hidx, by simp [hcur]⟩
    · intro htrue
      simp only [stepBlock, hb, if_neg, ite_false] at htrue ⊢
      obtain ⟨hcb, hrange⟩ := hyes htrue
      have hpnil : p ≠ [] := by
        intro hp
        rw [hp] at hconcat
        exact hcb (List.append_eq_nil.mp hconcat).2
      refine ⟨by simp, ?_⟩
      rw [firstBlockStart_append p b hpnil]
      exact hrange

lemma foldl_stepBlock_inv : ∀ (bs : List Block) (st : SplitState) (p : List Block),
    SplitInv st p → SplitInv (bs.foldl stepBlock st) (p ++ bs)
  | [], st, p, h => by simpa using h
  | b :: bs, st, p, h => by
    have h1 := stepBlock_inv b h
    have h2 := foldl_stepBlock_inv bs (stepBlock st b) (p ++ [b]) h1
    simpa [List.append_assoc] using h2

lemma initSplitState_inv : SplitInv initSplitState [] := by
  refine ⟨rfl, by simp [initSplitState], by simp [initSplitState], by simp [initSplitState]⟩

lemma split_inv (blocks : List Block) :
    SplitInv (blocks.foldl stepBlock initSplitState) blocks := by
  simpa using foldl_stepBlock_inv blocks initSplitState [] initSplitState_inv

lemma containsH1_eq_false_iff (blocks : List Block) :
    containsH1 blocks = false ↔ ∀ b ∈ blocks, getBlockLevel b ≠ some 1 := by
  simp [containsH1, List.any_eq_true]

lemma split_hasH1 (blocks : List Block) :
    (blocks.foldl stepBlock initSplitState).hasH1 = containsH1 blocks := by
  obtain ⟨-, hiff, -, -⟩ := split_inv blocks
  cases hst : (blocks.foldl stepBlock initSplitState).hasH1 with
  | false =>
    exact ((containsH1_eq_false_iff blocks).mpr (hiff.mp hst)).symm
  | true =>
    cases hc : containsH1 blocks with
    | false =>
      have := (containsH1_eq_false_iff blocks).mp hc
      have : (blocks.foldl stepBlock initSplitState).hasH1 = false := hiff.mpr this
      rw [hst] at this
      exact absurd this (by simp)
    | true => rfl

/-- For every input, the sections of `split_into_sections` concatenate
back to the input block list. -/
lemma split_sections_concat (blocks : List Block) :
    sectionsBlocks (split_into_sections blocks) = blocks := by
  obtain ⟨hconcat, hiff, hno, hyes⟩ := split_inv blocks
  unfold split_into_sections
  by_cases he : (blocks.foldl stepBlock initSplitState).currentBlocks.isEmpty
  · have hnil : (blocks.foldl stepBlock initSplitState).currentBlocks = [] :=
      List.isEmpty_iff.mp he
    simpa [he, hnil] using hconcat
  · by_cases hh : (blocks.foldl stepBlock initSplitState).hasH1
    · simp only [he, hh, ite_false, ite_true, Bool.false_eq_true, if_neg,
        if_pos]
      rw [sectionsBlocks_append]
      simpa [closeSection] using hconcat
    · simp only [he, hh, ite_false, Bool.false_eq_true, if_neg]
      simp [sectionsBlocks]

/-- The emitted section indices always form the consecutive run starting
at `splitStartIndex`. -/
lemma split_indices (blocks : List Block) :
    (split_into_sections blocks).map (fun s => s.index) =
      List.range' (splitStartIndex blocks) (split_into_sections blocks).length := by
  obtain ⟨hconcat, hiff, hno, hyes⟩ := split_inv blocks
  have hH := split_hasH1 blocks
  unfold split_into_sections
  by_cases he : (blocks.foldl stepBlock initSplitState).currentBlocks.isEmpty
  · have hnil : (blocks.foldl stepBlock initSplitState).currentBlocks = [] :=
      List.isEmpty_iff.mp he
    cases hst : (blocks.foldl stepBlock initSplitState).hasH1 with
    | true => exact absurd hnil (hyes hst).1
    | false =>
      obtain ⟨hsec, -, -⟩ := hno hst
      simp [he, hsec]
  · by_cases hh : (blocks.foldl stepBlock initSplitState).hasH1
    · obtain ⟨-, hrange⟩ := hyes hh
      have hcH1 : containsH1 blocks = true := by rw [← hH]; exact hh
      simp only [he, hh, ite_false, ite_true, Bool.false_eq_true, if_neg, if_pos]
      have hstart : splitStartIndex blocks = firstBlockStart blocks := by
        simp [splitStartIndex, hcH1]
      rw [hstart]
      simpa [closeSection] using hrange
    · have hcH1 : containsH1 blocks = false := by
        rw [← hH]; simpa using hh
      simp only [he, hh, ite_false, Bool.false_eq_true, if_neg]
      simp [splitStartIndex, hcH1]

/-- Claim C1: when the input is non-empty and contains a level-1
heading, the sections returned by `split_into_sections` partition the
input exactly: their block lists concatenated in section order equal
the input block list, so every block belongs to exactly one section,
none is duplicated or dropped, and relative order is preserved. -/
theorem splitIntoSections_partitions (blocks : List Block)
    (_h1 : blocks ≠ []) (_h2 : containsH1 blocks = true) :
    sectionsBlocks (split_into_sections blocks) = blocks :=
  split_sections_concat blocks

theorem splitIntoSections_partitions_witness :
    ([⟨"H", some 1⟩] : List Block) ≠ [] ∧
    containsH1 [⟨"H", some 1⟩] = true ∧
    sectionsBlocks (split_into_sections [⟨"H", some 1⟩]) = [⟨"H", some 1⟩] :=
  ⟨by decide, by decide,
    splitIntoSections_partitions [⟨"H", some 1⟩] (by decide) (by decide)⟩

/-- Claim C4 counterexample: when a content block precedes the first
level-1 heading, the first returned section has index `0`, not `1`, so
the indices are not the dense 1-based sequence the claim states. -/
theorem splitIntoSections_index_counterexample :
    (split_into_sections [⟨"x", none⟩, ⟨"H", some 1⟩]).map (fun s => s.index)
      = [0, 1] := by decide

/-- Claim C4 (amended): sections are returned in the order of their
opening blocks (their block lists concatenate to the input), and the
indices form a consecutive run with step 1; the run starts at `1`
except when content blocks precede the first level-1 heading, in which
case the leading preamble section is emitted with index `0`. -/
theorem splitIntoSections_index_spec (blocks : List Block) :
    sectionsBlocks (split_into_sections blocks) = blocks ∧
    (split_into_sections blocks).map (fun s => s.index) =
      List.range' (splitStartIndex blocks) (split_into_sections blocks).length :=
  ⟨split_sections_concat blocks, split_indices blocks⟩

/-- Claim C5 counterexample: on the empty block list
`split_into_sections` returns no sections at all (the fallback branch
is guarded by a non-empty open buffer), not one fallback section. -/
theorem splitIntoSections_empty_counterexample :
    split_into_sections ([] : List Block) = [] := rfl

/-- Claim C5 (amended): for every NON-empty block list with no level-1
heading, `split_into_sections` returns exactly one fallback section
with index 1, no heading block, title equal to the first block's
stripped text (or the sentinel `FULL_DOCUMENT` when that text is
empty), containing the entire input; the empty list yields no
sections. -/
theorem splitIntoSections_fallback (blocks : List Block) (h1 : blocks ≠ [])
    (h2 : containsH1 blocks = false) :
    split_into_sections blocks =
      [{ index := 1
         title := pyOrStr (firstText blocks) "FULL_DOCUMENT"
         heading_block := none
         blocks := blocks }] := by
  obtain ⟨hconcat, hiff, hno, hyes⟩ := split_inv blocks
  have hH := split_hasH1 blocks
  have hst : (blocks.foldl stepBlock initSplitState).hasH1 = false := by
    rw [hH]; exact h2
  obtain ⟨hsec, hidx, hcur⟩ := hno hst
  have he : ¬ (blocks.foldl stepBlock initSplitState).currentBlocks.isEmpty := by
    simpa [hcur] using h1
  unfold split_into_sections
  simp [he, hst]

theorem splitIntoSections_fallback_witness :
    ([⟨"only text", none⟩] : List Block) ≠ [] ∧
    containsH1 [⟨"only text", none⟩] = false ∧
    split_into_sections [⟨"only text", none⟩] =
      [{ index := 1
         title := "only text"
         heading_block := none
         blocks := [⟨"only text", none⟩] }] := by
  refine ⟨by decide, by decide, ?_⟩
  have h := splitIntoSections_fallback [⟨"only text", none⟩] (by decide) (by decide)
  simpa using h

/-! ### The Intro/A*700/B*700 scenario (claim C2) -/

set_option maxRecDepth 100000

/-- A paragraph text of 700 letters `A`. -/
def aText : String := String.mk (List.replicate 700 'A')

/-- A paragraph text of 700 letters `B`. -/
def bText : String := String.mk (List.replicate 700 'B')

/-- The scenario input: a level-1 heading `Intro` followed by the two
700-character paragraphs. -/
def introBlocks : List Block := [⟨"Intro", some 1⟩, ⟨aText, none⟩, ⟨bText, none⟩]

/-- The single section the scenario input splits into. Its block list
contains the heading block itself, as `split_into_sections` always puts
the opening heading at the head of its section. -/
def introSection : Section :=
  { index := 1
    title := "Intro"
    heading_block := some ⟨"Intro", some 1⟩
    blocks := introBlocks }

/-- Claim C2 counterexample: on the scenario input the first chunk is
not `"Intro\n\n" ++ "A"*700`. The heading block belongs to the
section's block list, so its text `Intro` is also collected as a
content piece, and the first chunk carries the title twice (length 714,
not 707). -/
theorem introScenario_counterexample :
    split_into_sections introBlocks = [introSection] ∧
    build_text_chunks_for_section introSection 1200 600 ≠
      ["Intro" ++ "\n\n" ++ aText, "Intro" ++ "\n\n" ++ bText] := by
  constructor
  · decide
  · decide

/-- Claim C2 (amended): the scenario input yields exactly one section
titled `Intro`, and chunking it with `maxChars = 1200`, `minChars =
600` yields exactly two chunks, in order: `"Intro\n\nIntro\n\n" ++
"A"*700` (the title prefix plus the heading block's own text as the
first piece) and `"Intro\n\n" ++ "B"*700`. -/
theorem introScenario_chunks :
    split_into_sections introBlocks = [introSection] ∧
    build_text_chunks_for_section introSection 1200 600 =
      ["Intro" ++ "\n\n" ++ "Intro" ++ "\n\n" ++ aText,
       "Intro" ++ "\n\n" ++ bText] := by
  constructor
  · decide
  · decide

/-! ### Chunk length bound (claim C3) -/

lemma joinPieces_append : ∀ (l : List String) (p : String),
    joinPieces (l ++ [p]) = if l.isEmpty then p else joinPieces l ++ "\n\n" ++ p
  | [], p => rfl
  | [q], p => by simp [joinPieces]
  | q :: r :: rs, p => by
    have ih := joinPieces_append (r :: rs) p
    simp only [List.isEmpty_cons, ite_false, Bool.false_eq_true, if_neg,
      List.cons_append] at ih
    simp only [List.cons_append, joinPieces, List.isEmpty_cons, Bool.false_eq_true,
      if_neg, ite_false, List.append_eq]
    rw [ih]
    simp [String.append_assoc]

lemma length_sep : ("\n\n" : String).length = 2 := rfl

lemma length_joinPieces_append (l : List String) (p : String) (hl : ¬ l.isEmpty) :
    (joinPieces (l ++ [p])).length = (joinPieces l).length + 2 + p.length := by
  rw [joinPieces_append]
  simp only [hl, ite_false, Bool.false_eq_true, if_neg]
  simp [String.length_append, length_sep]

lemma length_withHeader (header body : String) :
    (withHeader header body).length = overheadOf header + body.length := by
  unfold withHeader overheadOf
  by_cases h : header = ""
  · simp [h]
  · simp [h, String.length_append, length_sep]

/-- Loop invariant of `build_text_chunks_for_section`: with every piece
bounded by `M` in length, every flushed chunk is bounded by the header
overhead plus `M`, the open buffer joins to at most `M` characters, and
the tracked counter over-approximates the joined buffer length. -/
def ChunkInv (header : String) (M : Int) (st : ChunkState) : Prop :=
  (∀ c ∈ st.chunks, (c.length : Int) ≤ (overheadOf header : Int) + M)
  ∧ (((joinPieces st.current).length : Int) ≤ M)
  ∧ (joinPieces st.current).length ≤ st.currentLen

lemma chunkStep_inv {header : String} {maxChars M : Int} {st : ChunkState}
    (hM1 : maxChars ≤ M) {p : String} (hp : (p.length : Int) ≤ M)
    (h : ChunkInv header M st) : ChunkInv header M (chunkStep maxChars header st p) := by
  obtain ⟨hch, hjle, hjlen⟩ := h
  unfold chunkStep
  by_cases hcond : ((st.currentLen + extraLen st p : Nat) : Int) > maxChars
      ∧ ¬ st.current.isEmpty
  · -- the buffer is flushed first
    have hne : st.current.isEmpty = false := by
      cases hc : st.current.isEmpty
      · rfl
      · exact absurd hc hcond.2
    simp only [hcond, if_pos, ite_true, flushCurrent, hne, Bool.false_eq_true, if_neg,
      ite_false]
    dsimp only [ChunkInv]
    refine ⟨?_, ?_, ?_⟩
    · intro c hc
      rcases List.mem_append.mp hc with hmem | hmem
      · exact hch c hmem
      · have hc2 : c = withHeader header (joinPieces st.current) := by simpa using hmem
        rw [hc2, length_withHeader]
        push_cast
        omega
    · simpa [joinPieces] using hp
    · simp [joinPieces, extraLen]
  · simp only [hcond, ite_false, if_neg]
    dsimp only [ChunkInv]
    by_cases hne : st.current.isEmpty
    · have hnil : st.current = [] := List.isEmpty_iff.mp hne
      refine ⟨hch, ?_, ?_⟩
      · simpa [hnil, joinPieces] using hp
      · simp [hnil, joinPieces, extraLen]
    · -- appending within the budget
      have hle : ((st.currentLen + extraLen st p : Nat) : Int) ≤ maxChars := by
        rcases not_and_or.mp hcond with hc | hc
        · omega
        · exact absurd hne (by simpa using hc)
      have hnee : st.current.isEmpty = false := by
        cases hc : st.current.isEmpty
        · rfl
        · exact absurd hc hne
      have hlen2 : (joinPieces (st.current ++ [p])).length
          = (joinPieces st.current).length + 2 + p.length :=
        length_joinPieces_append st.current p hne
      have hextra : extraLen st p = p.length + 2 := by
        simp [extraLen, hnee]
      refine ⟨hch, ?_, ?_⟩
      · rw [hlen2]
        push_cast at hle ⊢
        omega
      · rw [hlen2]
        omega

lemma foldl_chunkStep_inv {header : String} {maxChars M : Int}
    (hM1 : maxChars ≤ M) :
    ∀ (ps : List String) (st : ChunkState),
      (∀ p ∈ ps, (p.length : Int) ≤ M) → ChunkInv header M st →
      ChunkInv header M (ps.foldl (chunkStep maxChars header) st)
  | [], st, _, h => h
  | p :: ps, st, hps, h => by
    have h1 := chunkStep_inv hM1 (hps p (by simp)) h
    exact foldl_chunkStep_inv hM1 ps _ (fun q hq => hps q (by simp [hq])) h1

lemma le_foldr_max : ∀ {x : Nat} {l : List Nat}, x ∈ l → x ≤ l.foldr max 0
  | x, [], h => absurd h (by simp)
  | x, y :: l, h => by
    rcases List.mem_cons.mp h with h | h
    · simp [h, le_max_left]
    · exact le_trans (le_foldr_max h) (by simp [le_max_right])

lemma getLastD_mem : ∀ (l : List String) (d : String), l ≠ [] → l.getLastD d ∈ l
  | [], d, h => absurd rfl h
  | [x], d, _ => by simp
  | x :: y :: l, d, _ => by
    have := getLastD_mem (y :: l) d (by simp)
    simpa using List.mem_cons_of_mem x this

/-- An untitled section holding a 9-character block and a 2-character
block; reachable as a preamble section of `split_into_sections`. -/
def secShortTail : Section := ⟨0, "", none, [⟨"aaaaaaaaa", none⟩, ⟨"bb", none⟩]⟩

/-- Claim C3 counterexample: a short tail (here `bb`, below
`minChars = 5`) is merged into the previous chunk, producing the single
chunk `aaaaaaaaa\n\nbb` of length 13 > `maxChars = 10` even though no
single block text exceeds `maxChars` (the section title is empty, so
the title overhead is 0). -/
theorem buildTextChunks_bound_counterexample :
    build_text_chunks_for_section secShortTail 10 5 = ["aaaaaaaaa\n\nbb"] ∧
    ¬ ((("aaaaaaaaa\n\nbb" : String).length : Int) ≤
        10 + (titleOverhead secShortTail : Int)) ∧
    (("aaaaaaaaa" : String).length : Int) ≤ 10 ∧
    (("bb" : String).length : Int) ≤ 10 := by
  refine ⟨by decide, by decide, by decide, by decide⟩

/-- Claim C3 (amended): for positive `maxChars`, `minChars` with
`minChars < maxChars`, every chunk of a section has length at most the
title-prefix overhead plus `max maxChars L` plus `minChars + 1`, where
`L` is the longest single piece (stripped block text) of the section.
The `maxChars`-plus-overhead bound of the original claim can be
exceeded both by a chunk carrying a single block longer than `maxChars`
(accounted by `L`) and by the final chunk after a sub-`minChars` tail
is glued onto it (accounted by `minChars + 1`). -/
theorem buildTextChunks_length_bound (s : Section) (maxChars minChars : Int)
    (h1 : 0 < maxChars) (h2 : 0 < minChars) (h3 : minChars < maxChars) :
    ∀ c ∈ build_text_chunks_for_section s maxChars minChars,
      (c.length : Int) ≤
        (titleOverhead s : Int) + max maxChars (longestPiece s : Int)
          + minChars + 1 := by
  intro c hc
  set header := pyStrip s.title with hheader
  set M : Int := max maxChars (longestPiece s : Int) with hM
  have hM1 : maxChars ≤ M := le_max_left _ _
  have hM0 : 0 < M := lt_of_lt_of_le h1 hM1
  have hover : (titleOverhead s : Int) = (overheadOf header : Int) := by
    simp [titleOverhead, hheader]
  rw [hover]
  have hpieces : ∀ p ∈ sectionPieces s, (p.length : Int) ≤ M := by
    intro p hp
    have : p.length ≤ longestPiece s := by
      have : p.length ∈ (sectionPieces s).map String.length :=
        List.mem_map_of_mem String.length hp
      exact le_foldr_max this
    calc (p.length : Int) ≤ (longestPiece s : Int) := by exact_mod_cast this
      _ ≤ M := le_max_right _ _
  unfold build_text_chunks_for_section at hc
  simp only [← hheader] at hc
  by_cases hpe : (sectionPieces s).isEmpty
  · simp only [hpe, ite_true, if_pos] at hc
    by_cases hh : header = ""
    · simp [hh] at hc
    · simp only [hh, ite_false, Bool.false_eq_true, if_neg] at hc
      have : c = header := by simpa using hc
      rw [this]
      have : (overheadOf header : Int) = (header.length : Int) + 2 := by
        simp [overheadOf, hh]
      omega
  · have hinv : ChunkInv header M
        ((sectionPieces s).foldl (chunkStep maxChars header) ⟨[], [], 0⟩) := by
      refine foldl_chunkStep_inv hM1 _ _ hpieces ⟨by simp, ?_, ?_⟩
      · simpa [joinPieces] using le_of_lt hM0
      · simp [joinPieces]
    obtain ⟨hch, hjle, hjlen⟩ := hinv
    set st := (sectionPieces s).foldl (chunkStep maxChars header) ⟨[], [], 0⟩ with hst
    simp only [hpe, ite_false, Bool.false_eq_true, if_neg, ← hst] at hc
    by_cases hce : st.current.isEmpty
    · simp only [hce, ite_true, if_pos] at hc
      have := hch c hc
      omega
    · simp only [hce, ite_false, Bool.false_eq_true, if_neg] at hc
      by_cases hmerge : ¬ st.chunks.isEmpty ∧
          ((joinPieces st.current).length : Int) < minChars
      · simp only [hmerge, ite_true, if_pos] at hc
        rcases List.mem_append.mp hc with hmem | hmem
        · have : c ∈ st.chunks :=
            (List.dropLast_sublist st.chunks).mem hmem
          have := hch c this
          omega
        · have hcnil : st.chunks ≠ [] := by
            intro h0
            exact hmerge.1 (by simp [h0])
          have hlast := hch (st.chunks.getLastD "") (getLastD_mem st.chunks "" hcnil)
          have hc2 : c = st.chunks.getLastD "" ++ "\n\n" ++ joinPieces st.current := by
            simpa using hmem
          rw [hc2]
          simp only [String.length_append, length_sep]
          push_cast
          omega
      · simp only [hmerge, ite_false, if_neg] at hc
        rcases List.mem_append.mp hc with hmem | hmem
        · have := hch c hmem
          omega
        · have hc2 : c = withHeader header (joinPieces st.current) := by
            simpa using hmem
          rw [hc2, length_withHeader]
          push_cast
          omega

/-- A one-block section with title `T`, used as the witness input. -/
def secTiny : Section := ⟨1, "T", none, [⟨"x", none⟩]⟩

theorem buildTextChunks_length_bound_witness :
    (0 : Int) < 10 ∧ (0 : Int) < 5 ∧ (5 : Int) < 10 ∧
    (("T\n\nx" : String).length : Int) ≤
      (titleOverhead secTiny : Int) + max 10 (longestPiece secTiny : Int) + 5 + 1 :=
  ⟨by norm_num, by norm_num, by norm_num,
    buildTextChunks_length_bound secTiny 10 5 (by norm_num) (by norm_num)
      (by norm_num) "T\n\nx" (by decide)⟩

/-! ### Sortedness of the descending stable sort -/

lemma mem_insertScored {x z : Chunk × ℝ} :
    ∀ {l : List (Chunk × ℝ)}, z ∈ insertScored x l → z = x ∨ z ∈ l
  | [], h => by
    simp only [insertScored, List.mem_singleton] at h
    exact Or.inl h
  | y :: ys, h => by
    unfold insertScored at h
    by_cases hle : y.2 ≤ x.2
    · rw [if_pos hle] at h
      exact List.mem_cons.mp h
    · rw [if_neg hle] at h
      rcases List.mem_cons.mp h with h | h
      · exact Or.inr (h ▸ List.mem_cons_self y ys)
      · rcases mem_insertScored h with h | h
        · exact Or.inl h
        · exact Or.inr (List.mem_cons_of_mem y h)

lemma insertScored_sorted {x : Chunk × ℝ} :
    ∀ {l : List (Chunk × ℝ)}, SortedByScoreDesc l →
      SortedByScoreDesc (insertScored x l)
  | [], _ => by simp [insertScored, SortedByScoreDesc]
  | y :: ys, h => by
    unfold SortedByScoreDesc at h ⊢
    rw [List.pairwise_cons] at h
    unfold insertScored
    by_cases hle : y.2 ≤ x.2
    · rw [if_pos hle]
      refine List.Pairwise.cons ?_ (List.Pairwise.cons h.1 h.2)
      intro z hz
      rcases List.mem_cons.mp hz with hz | hz
      · exact hz ▸ hle
      · exact le_trans (h.1 z hz) hle
    · rw [if_neg hle]
      have hx : x.2 ≤ y.2 := le_of_not_le hle
      refine List.Pairwise.cons ?_ (insertScored_sorted h.2)
      intro z hz
      rcases mem_insertScored hz with hz | hz
      · exact hz ▸ hx
      · exact h.1 z hz

lemma sortByScoreDesc_sorted : ∀ (l : List (Chunk × ℝ)),
    SortedByScoreDesc (sortByScoreDesc l)
  | [] => by simp [sortByScoreDesc, SortedByScoreDesc]
  | x :: xs => insertScored_sorted (sortByScoreDesc_sorted xs)

lemma mem_sortByScoreDesc {z : Chunk × ℝ} :
    ∀ {l : List (Chunk × ℝ)}, z ∈ sortByScoreDesc l → z ∈ l
  | [], h => by simp [sortByScoreDesc] at h
  | x :: xs, h => by
    unfold sortByScoreDesc at h
    rcases mem_insertScored h with h | h
    · exact h ▸ List.mem_cons_self x xs
    · exact List.mem_cons_of_mem x (mem_sortByScoreDesc h)

/-! ### Cosine similarity lemmas -/

lemma sumSq_nonneg (a : List ℚ) : 0 ≤ sumSq a := by
  refine List.sum_nonneg ?_
  intro x hx
  rcases List.mem_map.mp hx with ⟨y, -, rfl⟩
  exact mul_self_nonneg y

lemma pyNorm_mul_self (a : List ℚ) :
    pyNorm a * pyNorm a = ((sumSq a : ℚ) : ℝ) := by
  unfold pyNorm
  exact Real.mul_self_sqrt (by exact_mod_cast sumSq_nonneg a)

lemma pyNorm_eq_zero_iff (a : List ℚ) : pyNorm a = 0 ↔ sumSq a = 0 := by
  unfold pyNorm
  rw [Real.sqrt_eq_zero']
  constructor
  · intro h
    have h2 : (0 : ℝ) ≤ ((sumSq a : ℚ) : ℝ) := by exact_mod_cast sumSq_nonneg a
    have : ((sumSq a : ℚ) : ℝ) = 0 := le_antisymm h h2
    exact_mod_cast this
  · intro h
    rw [h]
    simp

lemma dotQ_self : ∀ (a : List ℚ), dotQ a a = sumSq a
  | [] => rfl
  | x :: a => by
    simp only [dotQ, sumSq, List.zipWith_cons_cons, List.map_cons, List.sum_cons]
    have := dotQ_self a
    simp only [dotQ, sumSq] at this
    rw [this]

lemma cosine_self {v : List ℚ} (h : sumSq v ≠ 0) :
    cosine_similarity v v = .ok 1 := by
  unfold cosine_similarity
  have hd : ((sumSq v : ℚ) : ℝ) ≠ 0 := by exact_mod_cast h
  have hdenom : pyNorm v * pyNorm v ≠ 0 := by
    rw [pyNorm_mul_self]
    exact hd
  rw [if_neg hdenom, if_pos rfl, pyNorm_mul_self, dotQ_self, div_self hd]

lemma cosine_zero_denom {a b : List ℚ} (h : pyNorm a * pyNorm b = 0) :
    cosine_similarity a b = .ok 0 := by
  unfold cosine_similarity
  rw [if_pos h]

lemma sumSq_replicate_zero (n : Nat) : sumSq (List.replicate n 0) = 0 := by
  induction n with
  | zero => rfl
  | succ n ih =>
    simp only [List.replicate_succ, sumSq, List.map_cons, List.sum_cons] at ih ⊢
    simp [ih]

lemma cosine_eval {a b : List ℚ} (ha : sumSq a ≠ 0) (hb : sumSq b ≠ 0)
    (hl : a.length = b.length) :
    cosine_similarity a b = .ok (((dotQ a b : ℚ) : ℝ) / (pyNorm a * pyNorm b)) := by
  unfold cosine_similarity
  have hna : pyNorm a ≠ 0 := fun h => ha ((pyNorm_eq_zero_iff a).mp h)
  have hnb : pyNorm b ≠ 0 := fun h => hb ((pyNorm_eq_zero_iff b).mp h)
  rw [if_neg (mul_ne_zero hna hnb), if_pos hl]

lemma cosine_one : cosine_similarity [(1 : ℚ)] [(1 : ℚ)] = .ok 1 :=
  cosine_self (by norm_num [sumSq])

/-- Claim C9: `_cosine_similarity` of a non-zero vector with itself is
exactly `1.0`; of any vector with the conformable zero vector it is
exactly `0.0`; and whenever the product of the two Euclidean norms is
exactly zero, the result is `0.0` — the guard prevents any division by
zero. (Float arithmetic is modelled as exact real arithmetic.) -/
theorem cosineSimilarity_spec (v w : List ℚ) :
    (sumSq v ≠ 0 → cosine_similarity v v = .ok 1)
    ∧ cosine_similarity v (List.replicate v.length 0) = .ok 0
    ∧ (pyNorm v * pyNorm w = 0 → cosine_similarity v w = .ok 0) := by
  refine ⟨fun h => cosine_self h, ?_, fun h => cosine_zero_denom h⟩
  refine cosine_zero_denom ?_
  have hz : pyNorm (List.replicate v.length 0) = 0 := by
    rw [pyNorm_eq_zero_iff]
    exact sumSq_replicate_zero v.length
  rw [hz, mul_zero]

theorem cosineSimilarity_spec_witness :
    sumSq [(1 : ℚ)] ≠ 0 ∧
    pyNorm [(1 : ℚ)] * pyNorm [(0 : ℚ)] = 0 ∧
    cosine_similarity [(1 : ℚ)] [(1 : ℚ)] = .ok 1 ∧
    cosine_similarity [(1 : ℚ)] [(0 : ℚ)] = .ok 0 := by
  have h := cosineSimilarity_spec [(1 : ℚ)] [(0 : ℚ)]
  have hz : pyNorm [(0 : ℚ)] = 0 := by
    rw [pyNorm_eq_zero_iff]
    norm_num [sumSq]
  have hprod : pyNorm [(1 : ℚ)] * pyNorm [(0 : ℚ)] = 0 := by rw [hz, mul_zero]
  exact ⟨by norm_num [sumSq], hprod, h.1 (by norm_num [sumSq]), h.2.2 hprod⟩

/-! ### Scoring loop: skipped candidates (claim C6) -/

lemma scoreLoop_ok_mem {q : List ℚ} :
    ∀ {chunks : List Chunk} {acc res : List (Chunk × ℝ)},
      scoreLoop q acc chunks = .ok res →
      ∀ p ∈ res, p ∈ acc ∨ hasScorableEmbedding p.1 = true
  | [], acc, res, hres => by
    intro p hp
    simp only [scoreLoop, Except.ok.injEq] at hres
    exact Or.inl (hres ▸ hp)
  | ch :: rest, acc, res, hres => by
    intro p hp
    rw [scoreLoop] at hres
    cases hn : normalize_embedding ch.embedding with
    | none =>
      rw [hn] at hres
      exact scoreLoop_ok_mem hres p hp
    | some l =>
      rw [hn] at hres
      dsimp only at hres
      by_cases hl : l.isEmpty
      · rw [if_pos hl] at hres
        exact scoreLoop_ok_mem hres p hp
      · rw [if_neg hl] at hres
        cases hf : npToFloatArray l with
        | none =>
          rw [hf] at hres
          exact scoreLoop_ok_mem hres p hp
        | some v =>
          rw [hf] at hres
          dsimp only at hres
          cases hcos : cosine_similarity q v with
          | error e =>
            rw [hcos] at hres
            exact absurd hres (by simp)
          | ok sim =>
            rw [hcos] at hres
            rcases scoreLoop_ok_mem hres p hp with hmem | hsc
            · rcases List.mem_append.mp hmem with hmem | hmem
              · exact Or.inl hmem
              · refine Or.inr ?_
                have hpch : p = (ch, sim) := by simpa using hmem
                rw [hpch]
                simp only [hasScorableEmbedding, hn, hl, hf]
                simp
            · exact Or.inr hsc

lemma scoreChunks_ok_scorable {q : List ℚ} {chunks : List Chunk}
    {scored : List (Chunk × ℝ)} {p : Chunk × ℝ}
    (hok : score_chunks_by_similarity q chunks = .ok scored)
    (hp : p ∈ scored) : hasScorableEmbedding p.1 = true := by
  unfold score_chunks_by_similarity at hok
  cases hres : scoreLoop q [] chunks with
  | error e =>
    rw [hres] at hok
    exact absurd hok (by simp [Except.map])
  | ok raw =>
    rw [hres] at hok
    have hscored : scored = sortByScoreDesc raw := by
      simpa [Except.map] using hok.symm
    have hpraw : p ∈ raw := mem_sortByScoreDesc (hscored ▸ hp)
    rcases scoreLoop_ok_mem hres p hpraw with hmem | hsc
    · exact absurd hmem (by simp)
    · exact hsc

/-- A non-scorable candidate (a chunk whose embedding does not
normalize, is empty, or has a non-numeric element) is a no-op of the
scoring loop: it is skipped, contributing neither a scored pair nor an
error, so a malformed candidate can never make the scorer raise. -/
lemma scoreLoop_skip {q : List ℚ} {acc : List (Chunk × ℝ)} {bad : Chunk}
    (hbad : hasScorableEmbedding bad = false) (rest : List Chunk) :
    scoreLoop q acc (bad :: rest) = scoreLoop q acc rest := by
  rw [scoreLoop]
  unfold hasScorableEmbedding at hbad
  cases hn : normalize_embedding bad.embedding with
  | none => rfl
  | some l =>
    rw [hn] at hbad
    dsimp only at hbad ⊢
    by_cases hl : l.isEmpty
    · rw [if_pos hl]
    · rw [if_neg hl]
      have hle : l.isEmpty = false := by
        cases hle2 : l.isEmpty
        · rfl
        · exact absurd hle2 hl
      cases hf : npToFloatArray l with
      | none => rfl
      | some v =>
        rw [hle, hf] at hbad
        simp at hbad

/-- A candidate with a well-formed one-component embedding. -/
def chunkOne : Chunk := ⟨"c1", "doc", "text one", .pyList [.num 1], "ok"⟩

/-- A candidate whose stored embedding is absent (Python `None`). -/
def badChunk : Chunk := ⟨"c0", "doc", "no embedding", .pyNone, "ok"⟩

/-- Claim C6: candidates whose stored embedding is absent, a string
that fails strict JSON decoding, a decoded non-list value, an empty
sequence, an unsupported type, or a sequence with a non-numeric
element are skipped without raising — such a candidate is a no-op of
the scoring loop, contributing neither a scored pair nor an error —
and every pair `score_chunks_by_similarity` outputs comes from a
candidate whose embedding normalizes to a non-empty sequence whose
elements all convert to numbers, so no undecodable or absent embedding
ever appears in the output. -/
theorem scoreChunks_skips_unscorable (q : List ℚ) :
    (∀ (acc : List (Chunk × ℝ)) (bad : Chunk) (rest : List Chunk),
        hasScorableEmbedding bad = false →
        scoreLoop q acc (bad :: rest) = scoreLoop q acc rest)
    ∧ (∀ (chunks : List Chunk) (scored : List (Chunk × ℝ)) (p : Chunk × ℝ),
        score_chunks_by_similarity q chunks = .ok scored →
        p ∈ scored → hasScorableEmbedding p.1 = true) :=
  ⟨fun _ _ rest hbad => scoreLoop_skip hbad rest,
   fun _ _ _ hok hp => scoreChunks_ok_scorable hok hp⟩

/-- A second candidate with the same well-formed embedding. -/
def chunkTwo : Chunk := ⟨"c2", "doc", "text two", .pyList [.num 1], "ok"⟩

lemma score_single_eval :
    score_chunks_by_similarity [(1 : ℚ)] [chunkOne] = .ok [(chunkOne, 1)] := by
  have h1 : scoreLoop [(1 : ℚ)] [] [chunkOne] =
      match cosine_similarity [(1 : ℚ)] [(1 : ℚ)] with
      | .error e => .error e
      | .ok sim => .ok [(chunkOne, sim)] := rfl
  rw [cosine_one] at h1
  unfold score_chunks_by_similarity
  rw [h1]
  simp [Except.map, sortByScoreDesc, insertScored]

lemma score_pair_eval :
    score_chunks_by_similarity [(1 : ℚ)] [chunkOne, chunkTwo] =
      .ok [(chunkOne, 1), (chunkTwo, 1)] := by
  have h1 : scoreLoop [(1 : ℚ)] [] [chunkOne, chunkTwo] =
      match cosine_similarity [(1 : ℚ)] [(1 : ℚ)] with
      | .error e => .error e
      | .ok sim =>
        match cosine_similarity [(1 : ℚ)] [(1 : ℚ)] with
        | .error e2 => .error e2
        | .ok sim2 => .ok [(chunkOne, sim), (chunkTwo, sim2)] := rfl
  rw [cosine_one] at h1
  unfold score_chunks_by_similarity
  rw [h1]
  simp [Except.map, sortByScoreDesc, insertScored]

lemma score_mixed_eval :
    score_chunks_by_similarity [(1 : ℚ)] [badChunk, chunkOne] =
      .ok [(chunkOne, 1)] := by
  have hskip : scoreLoop [(1 : ℚ)] [] [badChunk, chunkOne]
      = scoreLoop [(1 : ℚ)] [] [chunkOne] := scoreLoop_skip (by decide) [chunkOne]
  have h1 : scoreLoop [(1 : ℚ)] [] [chunkOne] =
      match cosine_similarity [(1 : ℚ)] [(1 : ℚ)] with
      | .error e => .error e
      | .ok sim => .ok [(chunkOne, sim)] := rfl
  rw [cosine_one] at h1
  unfold score_chunks_by_similarity
  rw [hskip, h1]
  simp [Except.map, sortByScoreDesc, insertScored]

theorem scoreChunks_skips_unscorable_witness :
    hasScorableEmbedding badChunk = false ∧
    scoreLoop [(1 : ℚ)] [] [badChunk, chunkOne]
      = scoreLoop [(1 : ℚ)] [] [chunkOne] ∧
    score_chunks_by_similarity [(1 : ℚ)] [badChunk, chunkOne]
      = .ok [(chunkOne, 1)] ∧
    (chunkOne, (1 : ℝ)) ∈ [(chunkOne, (1 : ℝ))] ∧
    hasScorableEmbedding chunkOne = true :=
  ⟨by decide,
   (scoreChunks_skips_unscorable [(1 : ℚ)]).1 [] badChunk [chunkOne] (by decide),
   score_mixed_eval, by simp,
   (scoreChunks_skips_unscorable [(1 : ℚ)]).2 [badChunk, chunkOne]
     [(chunkOne, 1)] (chunkOne, 1) score_mixed_eval (by simp)⟩

/-! ### retrieve_top_k (claims C7, C8, C10) -/

lemma pySlice_sublist (l : List α) (k : Int) : (pySlice l k).Sublist l := by
  unfold pySlice
  split
  · exact List.take_sublist _ _
  · exact List.take_sublist _ _

lemma pySlice_length_le (l : List α) {k : Int} (hk : 0 ≤ k) :
    ((pySlice l k).length : Int) ≤ k := by
  unfold pySlice
  rw [if_pos hk]
  have h1 : (l.take k.toNat).length ≤ k.toNat := by
    rw [List.length_take]
    exact Nat.min_le_left _ _
  calc ((l.take k.toNat).length : Int) ≤ (k.toNat : Int) := by exact_mod_cast h1
    _ = k := Int.toNat_of_nonneg hk

lemma pySlice_all (l : List α) {k : Int} (hk : (l.length : Int) ≤ k) :
    pySlice l k = l := by
  have hk0 : 0 ≤ k := le_trans (by positivity) hk
  unfold pySlice
  rw [if_pos hk0]
  refine List.take_of_length_le ?_
  omega

lemma score_ok_sorted {q : List ℚ} {chunks : List Chunk}
    {scored : List (Chunk × ℝ)}
    (hok : score_chunks_by_similarity q chunks = .ok scored) :
    SortedByScoreDesc scored := by
  unfold score_chunks_by_similarity at hok
  cases hres : scoreLoop q [] chunks with
  | error e =>
    rw [hres] at hok
    exact absurd hok (by simp [Except.map])
  | ok raw =>
    rw [hres] at hok
    have hscored : scored = sortByScoreDesc raw := by
      simpa [Except.map] using hok.symm
    exact hscored ▸ sortByScoreDesc_sorted raw

/-- Claim C7 counterexample: with two scorable candidates and `k = -1`,
`retrieve_top_k` follows Python slice semantics and returns one result,
which is more than `k`, so "at most `k` results for every `k`" fails
for negative `k`. -/
theorem retrieveTopK_negative_k_counterexample :
    retrieve_top_k [chunkOne, chunkTwo] (.ok [(1 : ℚ)]) (-1)
      = .ok [(chunkOne, 1)] ∧
    ¬ ((([(chunkOne, (1 : ℝ))]).length : Int) ≤ -1) := by
  constructor
  · have h0 : retrieve_top_k [chunkOne, chunkTwo] (.ok [(1 : ℚ)]) (-1) =
        match score_chunks_by_similarity [(1 : ℚ)] [chunkOne, chunkTwo] with
        | .error e => .error e
        | .ok scored => .ok (pySlice scored (-1)) := rfl
    rw [h0, score_pair_eval]
    show Except.ok (pySlice [(chunkOne, (1 : ℝ)), (chunkTwo, 1)] (-1))
      = .ok [(chunkOne, 1)]
    have hn : ((([(chunkOne, (1 : ℝ)), (chunkTwo, 1)].length : Nat) : Int)
        + -1).toNat = 1 := by simp
    unfold pySlice
    rw [if_neg (by norm_num : ¬ (0 : Int) ≤ -1), hn]
    rfl
  · simp

/-- Claim C7 (amended): whenever `retrieve_top_k` returns a result, it
is sorted by non-increasing similarity score; for every `k ≥ 0` it has
at most `k` entries (a negative `k` instead drops `-k` entries from the
end, Python slice semantics); and the empty candidate pool always
yields the empty result. -/
theorem retrieveTopK_spec (pool : List Chunk)
    (embedResult : Except PyError (List ℚ)) (k : Int) :
    (∀ res, retrieve_top_k pool embedResult k = .ok res →
      SortedByScoreDesc res ∧ (0 ≤ k → (res.length : Int) ≤ k))
    ∧ (pool = [] → retrieve_top_k pool embedResult k = .ok []) := by
  constructor
  · intro res hres
    unfold retrieve_top_k at hres
    by_cases hp : pool.isEmpty
    · rw [if_pos hp] at hres
      have : res = [] := by simpa using hres.symm
      subst this
      exact ⟨List.Pairwise.nil, fun hk => by simpa using hk⟩
    · rw [if_neg hp] at hres
      cases embedResult with
      | error e =>
        dsimp only at hres
        exact absurd hres (by simp)
      | ok q =>
        dsimp only at hres
        cases hs : score_chunks_by_similarity q pool with
        | error e =>
          rw [hs] at hres
          exact absurd hres (by simp)
        | ok scored =>
          rw [hs] at hres
          dsimp only at hres
          have hres2 : res = pySlice scored k := by simpa using hres.symm
          subst hres2
          refine ⟨List.Pairwise.sublist (pySlice_sublist scored k)
            (score_ok_sorted hs), ?_⟩
          intro hk
          exact pySlice_length_le scored hk
  · intro hp
    subst hp
    rfl

theorem retrieveTopK_spec_witness :
    retrieve_top_k [] (.ok [(1 : ℚ)]) 3 = .ok [] ∧
    SortedByScoreDesc ([] : List (Chunk × ℝ)) ∧
    ((([] : List (Chunk × ℝ)).length : Int) ≤ 3) := by
  have h := retrieveTopK_spec [] (.ok [(1 : ℚ)]) 3
  have he := h.2 rfl
  exact ⟨he, (h.1 [] he).1, (h.1 [] he).2 (by norm_num)⟩

/-- Claim C8 counterexample: `k = -1 ≤ 0` does not return an empty
result on a pool with two scorable candidates: Python's `scored[:-1]`
keeps all but the last scored entry. -/
theorem retrieveTopK_nonpositive_counterexample :
    ((-1 : Int) ≤ 0) ∧
    retrieve_top_k [chunkOne, chunkTwo] (.ok [(1 : ℚ)]) (-1) ≠ .ok [] := by
  constructor
  · norm_num
  · have h0 : retrieve_top_k [chunkOne, chunkTwo] (.ok [(1 : ℚ)]) (-1) =
        match score_chunks_by_similarity [(1 : ℚ)] [chunkOne, chunkTwo] with
        | .error e => .error e
        | .ok scored => .ok (pySlice scored (-1)) := rfl
    rw [h0, score_pair_eval]
    show Except.ok (pySlice [(chunkOne, (1 : ℝ)), (chunkTwo, 1)] (-1)) ≠ .ok []
    have hn : ((([(chunkOne, (1 : ℝ)), (chunkTwo, 1)].length : Nat) : Int)
        + -1).toNat = 1 := by simp
    unfold pySlice
    rw [if_neg (by norm_num : ¬ (0 : Int) ≤ -1), hn]
    simp

/-- Claim C8 (amended): for every non-empty pool, `k = 0` yields an
empty result (a negative `k` instead drops `-k` entries from the end of
the scored list, Python slice semantics), and any `k` at least the size
of the scorable subset returns all scorable entries. -/
theorem retrieveTopK_k_bounds (pool : List Chunk)
    (embedResult : Except PyError (List ℚ)) (hpool : pool ≠ []) :
    (∀ res, retrieve_top_k pool embedResult 0 = .ok res → res = [])
    ∧ (∀ (q : List ℚ) (scored : List (Chunk × ℝ)) (k : Int),
        embedResult = .ok q →
        score_chunks_by_similarity q pool = .ok scored →
        (scored.length : Int) ≤ k →
        retrieve_top_k pool embedResult k = .ok scored) := by
  have hp : pool.isEmpty = false := by
    cases hl : pool with
    | nil => exact absurd hl hpool
    | cons c cs => rfl
  constructor
  · intro res hres
    unfold retrieve_top_k at hres
    rw [hp] at hres
    simp only [Bool.false_eq_true, if_neg, ite_false] at hres
    cases embedResult with
    | error e =>
      dsimp only at hres
      exact absurd hres (by simp)
    | ok q =>
      dsimp only at hres
      cases hs : score_chunks_by_similarity q pool with
      | error e =>
        rw [hs] at hres
        exact absurd hres (by simp)
      | ok scored =>
        rw [hs] at hres
        dsimp only at hres
        have : res = pySlice scored 0 := by simpa using hres.symm
        rw [this]
        simp [pySlice]
  · intro q scored k hq hs hk
    subst hq
    unfold retrieve_top_k
    rw [hp]
    simp only [Bool.false_eq_true, if_neg, ite_false]
    try dsimp only
    rw [hs]
    try dsimp only
    rw [pySlice_all scored hk]

theorem retrieveTopK_k_bounds_witness :
    ([chunkOne] : List Chunk) ≠ [] ∧
    retrieve_top_k [chunkOne] (.ok [(1 : ℚ)]) 0 = .ok [] ∧
    retrieve_top_k [chunkOne] (.ok [(1 : ℚ)]) 5 = .ok [(chunkOne, 1)] := by
  have h := retrieveTopK_k_bounds [chunkOne] (.ok [(1 : ℚ)]) (by simp)
  have e0 : retrieve_top_k [chunkOne] (.ok [(1 : ℚ)]) 0
      = .ok (pySlice [(chunkOne, (1 : ℝ))] 0) := by
    have h0 : retrieve_top_k [chunkOne] (.ok [(1 : ℚ)]) 0 =
        match score_chunks_by_similarity [(1 : ℚ)] [chunkOne] with
        | .error e => .error e
        | .ok scored => .ok (pySlice scored 0) := rfl
    rw [h0, score_single_eval]
  have h0 := h.1 (pySlice [(chunkOne, (1 : ℝ))] 0) e0
  rw [h0] at e0
  exact ⟨by simp, e0,
    h.2 [(1 : ℚ)] [(chunkOne, 1)] 5 rfl score_single_eval (by norm_num)⟩

/-- Claim C10: with an empty candidate pool, `retrieve_top_k` returns
the empty result before the embedding outcome is ever consumed, so even
a failing embedding provider (an `.error` outcome) cannot propagate out
of the call. -/
theorem retrieveTopK_empty_pool_no_embed (e : PyError) (k : Int) :
    retrieve_top_k [] (.error e) k = .ok [] := rfl

end RagKB
